import Mathlib

/-!
Shallow embedding of the assembly-selection algorithm of the
compiler-explorer `explain` service.

The algorithm appears twice in the repository, as the free function
`select_important_assembly` in `app/explain.py` and as the method
`Prompt.select_important_assembly` in `app/prompt.py`.  Both take a list of
loosely typed "assembly line" records, a map of label definitions, and a
line budget, and return either the input unchanged (when it fits the
budget) or a reduced list in which runs of dropped lines are replaced by
synthetic omission-marker entries.

Data model.  Each element of the input array is a Python value that is
either a dict or not; when it is a dict the algorithm reads only its
`"text"` key (an optional string) and its `"source"` key.  The `"source"`
value can be absent/None, a dict (whose `"line"` key is an optional
integer), or any other Python value of which only truthiness matters.
A `tag` field stands for all the other keys a record may carry, so that
distinct records stay distinct in the embedding.
-/

inductive SrcField where
  | absent
  | srcDict (entries : List (String × Option Int))
  | otherVal (truthy : Bool)
deriving DecidableEq, Repr

/-- Python truthiness of the `"source"` value (`asm_item.get("source")`):
an absent key or `None` is falsy, a dict is truthy iff non-empty. -/
def SrcField.truthy : SrcField → Bool
  | .absent => false
  | .srcDict es => !es.isEmpty
  | .otherVal t => t

/-- `asm_item["source"] is not None` (absent key also yields `None` via `get`). -/
def SrcField.notNone : SrcField → Bool
  | .absent => false
  | _ => true

/-- `isinstance(asm_item["source"], dict)`. -/
def SrcField.isDict : SrcField → Bool
  | .srcDict _ => true
  | _ => false

/-- `asm_item["source"].get("line")`: `none` when the key is missing or its
value is `None`. -/
def SrcField.lineVal : SrcField → Option Int
  | .srcDict es => (es.lookup "line").join
  | _ => none

/-- One element of `asm_array`: a dict with optional `"text"` string, a
`"source"` field and a tag abstracting its remaining keys, or a non-dict
value. -/
inductive AsmItem where
  | dict (text : Option String) (source : SrcField) (tag : Nat)
  | nonDict (tag : Nat)
deriving DecidableEq, Repr

/-- One element of the returned list: an input record kept verbatim, or a
synthetic omission marker recording the count embedded in its text. -/
inductive OutEntry where
  | item (a : AsmItem)
  | marker (count : Int)
deriving DecidableEq, Repr

/-- Text of a synthetic marker entry:
`f"... ({count} lines omitted) ..."`. -/
def omittedText (count : Int) : String :=
  "... (" ++ toString count ++ " lines omitted) ..."

/-- A value of the `label_definitions` dict: `some v` when the value is the
integer `v`, `none` for any non-integer value (`isinstance(line_idx, int)`
fails). -/
abbrev LabelVal := Option Int

/-- Python slice `l[:k]`, faithful to negative `k` (drop the last `-k`
elements). -/
def pySlice {α : Type} (l : List α) (k : Int) : List α :=
  if k < 0 then l.take ((l.length : Int) + k).toNat else l.take k.toNat

/-- `MAX_ASSEMBLY_LINES`, the default budget in both files. -/
def MAX_ASSEMBLY_LINES : Int := 300

/-- Python `str.strip()`: remove leading and trailing whitespace. -/
def pyStrip (s : String) : String :=
  ⟨((s.data.dropWhile Char.isWhitespace).reverse.dropWhile
      Char.isWhitespace).reverse⟩

/-- Python `s.startswith(pre)`. -/
def pyStartsWith (s pre : String) : Bool :=
  pre.data.isPrefixOf s.data

/-- `text in ("ret", "leave", "pop rbp") or text.startswith("ret ")`. -/
def retLike (t : String) : Bool :=
  (t == "ret" || t == "leave" || t == "pop rbp") || pyStartsWith t "ret "

/-- One iteration of the label-definitions loop (identical in both files):
an integer value in `[0, n)` marks `range(line_idx, min(line_idx + 5, n))`
as important, anything else is skipped. -/
def labelStep (n : Nat) (s : Finset ℕ) (p : String × LabelVal) : Finset ℕ :=
  match p.2 with
  | some v =>
      if 0 ≤ v ∧ v < (n : Int) then
        s ∪ Finset.Ico v.toNat (min (v.toNat + 5) n)
      else s
  | none => s

/-- The label-definitions loop over `label_definitions.items()`. -/
def labelImportant (n : Nat) (labels : List (String × LabelVal)) : Finset ℕ :=
  labels.foldl (labelStep n) ∅

/-- A label entry the algorithm actually uses: an integer value inside
`[0, len(asm_array))`. -/
def isValidLabel (n : Nat) (p : String × LabelVal) : Bool :=
  match p.2 with
  | some v => decide (0 ≤ v ∧ v < (n : Int))
  | none => false

namespace Explain

/-- One iteration of the `enumerate(asm_array)` loop of
`app/explain.py`: non-dicts and dicts without a `"text"` key are skipped;
a truthy dict source carrying a non-None `"line"` marks the index; a
return-like trimmed text marks `range(max(0, idx - 3), idx + 1)`. -/
def itemStep (st : Finset ℕ) (p : ℕ × AsmItem) : Finset ℕ :=
  match p.2 with
  | .nonDict _ => st
  | .dict none _ _ => st
  | .dict (some t) src _ =>
      let st1 :=
        if src.truthy && src.notNone then
          if src.isDict && src.lineVal.isSome then insert p.1 st else st
        else st
      if retLike (pyStrip t) then st1 ∪ Finset.Ico (p.1 - 3) (p.1 + 1) else st1

/-- `important_indices` after both marking loops. -/
def important (asm : List AsmItem) (labels : List (String × LabelVal)) :
    Finset ℕ :=
  asm.enum.foldl itemStep (labelImportant asm.length labels)

/-- `context_indices`: `range(max(0, idx - 2), min(len(asm_array), idx + 3))`
around every important index. -/
def contextOf (n : Nat) (imp : Finset ℕ) : Finset ℕ :=
  imp.biUnion fun idx => Finset.Ico (idx - 2) (min n (idx + 3))

/-- `all_indices = important_indices.union(context_indices)` before the
overflow check. -/
def combined (asm : List AsmItem) (labels : List (String × LabelVal)) :
    Finset ℕ :=
  important asm labels ∪ contextOf asm.length (important asm labels)

/-- `all_indices` after the overflow check: when the union exceeds
`max_lines`, fall back to the first `max_lines` important indices in
ascending order. -/
def allIndices (asm : List AsmItem) (labels : List (String × LabelVal))
    (maxLines : Int) : Finset ℕ :=
  if ((combined asm labels).card : Int) > maxLines then
    (pySlice ((important asm labels).sort (· ≤ ·)) maxLines).toFinset
  else combined asm labels

/-- The emission loop over `sorted_indices` together with the trailing
marker check: `lastIdx` is Python's `last_idx` (initially `-2`). -/
def emitRest (asm : List AsmItem) : Int → List ℕ → List OutEntry
  | lastIdx, [] =>
      if lastIdx < (asm.length : Int) - 1 then
        [OutEntry.marker ((asm.length : Int) - lastIdx - 1)]
      else []
  | lastIdx, idx :: rest =>
      (if (idx : Int) > lastIdx + 1 then
         [OutEntry.marker ((idx : Int) - lastIdx - 1)]
       else [])
      ++ (asm[idx]?.map OutEntry.item).toList
      ++ emitRest asm (idx : Int) rest

/-- `select_important_assembly` of `app/explain.py`. -/
def select_important_assembly (asm : List AsmItem)
    (labels : List (String × LabelVal)) (maxLines : Int) : List OutEntry :=
  if (asm.length : Int) ≤ maxLines then asm.map OutEntry.item
  else emitRest asm (-2) ((allIndices asm labels maxLines).sort (· ≤ ·))


/-- Kernel-executable form of `allIndices`: the ascending sort of a set of
indices below `len(asm_array)` is the filter of `range`. -/
def allIndicesExec (asm : List AsmItem) (labels : List (String × LabelVal))
    (maxLines : Int) : Finset ℕ :=
  if ((combined asm labels).card : Int) > maxLines then
    (pySlice ((List.range asm.length).filter
        (fun i => decide (i ∈ important asm labels))) maxLines).toFinset
  else combined asm labels

/-- Kernel-executable form of `select_important_assembly`, used to evaluate
the function at concrete inputs. -/
def selectExec (asm : List AsmItem) (labels : List (String × LabelVal))
    (maxLines : Int) : List OutEntry :=
  if (asm.length : Int) ≤ maxLines then asm.map OutEntry.item
  else emitRest asm (-2)
    ((List.range asm.length).filter
      (fun i => decide (i ∈ allIndicesExec asm labels maxLines)))

end Explain

namespace Prompt

/-- One iteration of the `enumerate(asm_array)` loop of
`Prompt.select_important_assembly` in `app/prompt.py`; the source check is
a single flattened conjunction there. -/
def itemStep (st : Finset ℕ) (p : ℕ × AsmItem) : Finset ℕ :=
  match p.2 with
  | .nonDict _ => st
  | .dict none _ _ => st
  | .dict (some t) src _ =>
      let st1 :=
        if src.truthy && src.notNone && src.isDict && src.lineVal.isSome then
          insert p.1 st
        else st
      if retLike (pyStrip t) then st1 ∪ Finset.Ico (p.1 - 3) (p.1 + 1) else st1

/-- `important_indices` after both marking loops (`app/prompt.py`). -/
def important (asm : List AsmItem) (labels : List (String × LabelVal)) :
    Finset ℕ :=
  asm.enum.foldl itemStep (labelImportant asm.length labels)

/-- `context_indices` (`app/prompt.py`). -/
def contextOf (n : Nat) (imp : Finset ℕ) : Finset ℕ :=
  imp.biUnion fun idx => Finset.Ico (idx - 2) (min n (idx + 3))

/-- `all_indices` before the overflow check (`app/prompt.py`). -/
def combined (asm : List AsmItem) (labels : List (String × LabelVal)) :
    Finset ℕ :=
  important asm labels ∪ contextOf asm.length (important asm labels)

/-- `all_indices` after the overflow check; `app/prompt.py` writes
`sorted(important_indices)` where `app/explain.py` writes
`sorted(list(important_indices))`, the same list. -/
def allIndices (asm : List AsmItem) (labels : List (String × LabelVal))
    (maxLines : Int) : Finset ℕ :=
  if ((combined asm labels).card : Int) > maxLines then
    (pySlice ((important asm labels).sort (· ≤ ·)) maxLines).toFinset
  else combined asm labels

/-- The emission loop with trailing marker check (`app/prompt.py`). -/
def emitRest (asm : List AsmItem) : Int → List ℕ → List OutEntry
  | lastIdx, [] =>
      if lastIdx < (asm.length : Int) - 1 then
        [OutEntry.marker ((asm.length : Int) - lastIdx - 1)]
      else []
  | lastIdx, idx :: rest =>
      (if (idx : Int) > lastIdx + 1 then
         [OutEntry.marker ((idx : Int) - lastIdx - 1)]
       else [])
      ++ (asm[idx]?.map OutEntry.item).toList
      ++ emitRest asm (idx : Int) rest

/-- `Prompt.select_important_assembly` of `app/prompt.py`. -/
def select_important_assembly (asm : List AsmItem)
    (labels : List (String × LabelVal)) (maxLines : Int) : List OutEntry :=
  if (asm.length : Int) ≤ maxLines then asm.map OutEntry.item
  else emitRest asm (-2) ((allIndices asm labels maxLines).sort (· ≤ ·))

end Prompt

/-- The output entries that are not omission markers, in order. -/
def nonMarkers (l : List OutEntry) : List AsmItem :=
  l.filterMap fun e =>
    match e with
    | .item a => some a
    | .marker _ => none

/-- Sorting a finite set of naturals all below `n` is filtering `range n`. -/
theorem sort_eq_rangeFilter {s : Finset ℕ} {n : ℕ} (h : ∀ i ∈ s, i < n) :
    s.sort (· ≤ ·) = (List.range n).filter (fun i => decide (i ∈ s)) := by
  have hs1 : List.Sorted (· ≤ ·) (s.sort (· ≤ ·)) := Finset.sort_sorted _ _
  have hs2 : List.Sorted (· ≤ ·)
      ((List.range n).filter fun i => decide (i ∈ s)) :=
    (List.sorted_le_range n).filter _
  have hp : List.Perm (s.sort (· ≤ ·))
      ((List.range n).filter (fun i => decide (i ∈ s))) := by
    rw [List.perm_ext_iff_of_nodup (Finset.sort_nodup _ _)
      ((List.nodup_range n).filter _)]
    intro a
    rw [Finset.mem_sort, List.mem_filter, List.mem_range]
    constructor
    · intro ha; exact ⟨h a ha, by simpa using ha⟩
    · intro ha; simpa using ha.2
  exact List.eq_of_perm_of_sorted hp hs1 hs2

/-- Generic invariant preservation for `List.foldl` building an index set. -/
theorem foldl_mem_bound {β : Type} (f : Finset ℕ → β → Finset ℕ) (P : ℕ → Prop)
    (l : List β) (s : Finset ℕ)
    (hstep : ∀ st b, b ∈ l → (∀ i ∈ st, P i) → ∀ i ∈ f st b, P i)
    (hs : ∀ i ∈ s, P i) : ∀ i ∈ l.foldl f s, P i := by
  induction l generalizing s with
  | nil => simpa using hs
  | cons b l ih =>
      intro i hi
      exact ih _ (fun st c hc => hstep st c (List.mem_cons_of_mem _ hc))
        (hstep s b (List.mem_cons_self _ _) hs) i hi

/-- Generic growth of `List.foldl` building an index set. -/
theorem foldl_subset_of_step {β : Type} (f : Finset ℕ → β → Finset ℕ)
    (l : List β) (s : Finset ℕ) (hstep : ∀ st b, st ⊆ f st b) :
    s ⊆ l.foldl f s := by
  induction l generalizing s with
  | nil => exact fun i hi => hi
  | cons b l ih => exact fun i hi => ih _ (hstep s b hi)

theorem labelStep_bound {n : ℕ} {s : Finset ℕ} {p : String × LabelVal}
    (hs : ∀ i ∈ s, i < n) : ∀ i ∈ labelStep n s p, i < n := by
  intro i hi
  unfold labelStep at hi
  rcases p with ⟨name, v⟩
  match v with
  | none => exact hs i hi
  | some v =>
      simp only at hi
      split at hi
      · rcases Finset.mem_union.mp hi with h | h
        · exact hs i h
        · have := (Finset.mem_Ico.mp h).2
          omega
      · exact hs i hi

theorem labelImportant_bound (n : ℕ) (labels : List (String × LabelVal)) :
    ∀ i ∈ labelImportant n labels, i < n := by
  refine foldl_mem_bound _ _ _ _ (fun st b _ hst => labelStep_bound hst) ?_
  intro i hi
  simp at hi

namespace Explain

theorem itemStep_bound {n : ℕ} {st : Finset ℕ} {p : ℕ × AsmItem}
    (hp : p.1 < n) (hst : ∀ i ∈ st, i < n) : ∀ i ∈ itemStep st p, i < n := by
  intro i hi
  unfold itemStep at hi
  rcases p with ⟨idx, a⟩
  match a with
  | .nonDict _ => exact hst i hi
  | .dict none _ _ => exact hst i hi
  | .dict (some t) src g =>
      simp only at hi hp
      have h1 : ∀ j ∈ (if src.truthy && src.notNone then
          if src.isDict && src.lineVal.isSome then insert idx st else st
          else st), j < n := by
        intro j hj
        split at hj
        · split at hj
          · rcases Finset.mem_insert.mp hj with h | h
            · omega
            · exact hst j h
          · exact hst j hj
        · exact hst j hj
      split at hi
      · rcases Finset.mem_union.mp hi with h | h
        · exact h1 i h
        · have := (Finset.mem_Ico.mp h).2
          omega
      · exact h1 i hi

theorem important_bound (asm : List AsmItem)
    (labels : List (String × LabelVal)) :
    ∀ i ∈ important asm labels, i < asm.length := by
  refine foldl_mem_bound _ _ _ _ ?_ (labelImportant_bound _ _)
  intro st b hb hst
  have hb1 : b.1 < asm.length := by
    rcases b with ⟨idx, a⟩
    have h1 := List.mem_enum_iff_getElem?.mp hb
    have h2 := List.getElem?_eq_some.mp h1
    exact h2.1
  exact itemStep_bound hb1 hst

theorem combined_bound (asm : List AsmItem)
    (labels : List (String × LabelVal)) :
    ∀ i ∈ combined asm labels, i < asm.length := by
  intro i hi
  rcases Finset.mem_union.mp hi with h | h
  · exact important_bound _ _ i h
  · rcases Finset.mem_biUnion.mp h with ⟨j, _, hj⟩
    have := (Finset.mem_Ico.mp hj).2
    omega

theorem allIndices_bound (asm : List AsmItem)
    (labels : List (String × LabelVal)) (maxLines : Int) :
    ∀ i ∈ allIndices asm labels maxLines, i < asm.length := by
  intro i hi
  unfold allIndices at hi
  split at hi
  · have hmem : i ∈ pySlice ((important asm labels).sort (· ≤ ·)) maxLines :=
      List.mem_toFinset.mp hi
    have hsub : i ∈ (important asm labels).sort (· ≤ ·) := by
      unfold pySlice at hmem
      split at hmem
      · exact List.mem_of_mem_take hmem
      · exact List.mem_of_mem_take hmem
    exact important_bound _ _ i ((Finset.mem_sort _).mp hsub)
  · exact combined_bound _ _ i hi


theorem allIndicesExec_eq (asm : List AsmItem)
    (labels : List (String × LabelVal)) (maxLines : Int) :
    allIndicesExec asm labels maxLines = allIndices asm labels maxLines := by
  unfold allIndicesExec allIndices
  rw [sort_eq_rangeFilter (important_bound asm labels)]


theorem selectExec_eq (asm : List AsmItem)
    (labels : List (String × LabelVal)) (maxLines : Int) :
    selectExec asm labels maxLines
      = select_important_assembly asm labels maxLines := by
  unfold selectExec select_important_assembly
  rw [allIndicesExec_eq,
    ← sort_eq_rangeFilter (allIndices_bound asm labels maxLines)]

end Explain

theorem rangeFilterMap {α : Type} (l : List α) :
    (List.range l.length).filterMap (fun i => l[i]?) = l := by
  induction l with
  | nil => rfl
  | cons a l ih =>
      rw [List.length_cons, List.range_succ_eq_map, List.filterMap_cons]
      simp only [List.getElem?_cons_zero, List.filterMap_map, Function.comp_def,
        List.getElem?_cons_succ]
      rw [ih]

theorem nonMarkers_emitRest (asm : List AsmItem) (last : Int)
    (idxs : List ℕ) :
    nonMarkers (Explain.emitRest asm last idxs)
      = idxs.filterMap (fun i => asm[i]?) := by
  induction idxs generalizing last with
  | nil =>
      unfold Explain.emitRest
      split <;> simp [nonMarkers]
  | cons i rest ih =>
      unfold Explain.emitRest
      simp only [nonMarkers, List.filterMap_append, List.filterMap_cons]
      rw [← nonMarkers, ← nonMarkers, ← nonMarkers, ih]
      cases h : asm[i]? with
      | none => split <;> simp [nonMarkers]
      | some a => split <;> simp [nonMarkers]

theorem mem_emitRest {asm : List AsmItem} {idxs : List ℕ} {i : ℕ}
    {a : AsmItem} (last : Int) (hi : i ∈ idxs) (ha : asm[i]? = some a) :
    OutEntry.item a ∈ Explain.emitRest asm last idxs := by
  induction idxs generalizing last with
  | nil => cases hi
  | cons j rest ih =>
      unfold Explain.emitRest
      rcases List.mem_cons.mp hi with rfl | h
      · refine List.mem_append_left _ (List.mem_append_right _ ?_)
        rw [ha]
        exact List.mem_singleton_self _
      · exact List.mem_append_right _ (ih _ h)

theorem itemStep_superset (st : Finset ℕ) (p : ℕ × AsmItem) :
    st ⊆ Explain.itemStep st p := by
  intro i hi
  unfold Explain.itemStep
  rcases p with ⟨idx, a⟩
  match a with
  | .nonDict _ => exact hi
  | .dict none _ _ => exact hi
  | .dict (some t) src g =>
      simp only
      have h1 : i ∈ (if src.truthy && src.notNone then
          if src.isDict && src.lineVal.isSome then insert idx st else st
          else st) := by
        split
        · split
          · exact Finset.mem_insert_of_mem hi
          · exact hi
        · exact hi
      split
      · exact Finset.mem_union_left _ h1
      · exact h1

theorem labelImportant_subset_important (asm : List AsmItem)
    (labels : List (String × LabelVal)) :
    labelImportant asm.length labels ⊆ Explain.important asm labels :=
  foldl_subset_of_step _ _ _ itemStep_superset

theorem labelStep_invalid {n : ℕ} {s : Finset ℕ} {p : String × LabelVal}
    (h : isValidLabel n p = false) : labelStep n s p = s := by
  unfold isValidLabel at h
  unfold labelStep
  rcases p with ⟨name, v⟩
  match v with
  | none => rfl
  | some v =>
      simp only at h ⊢
      rw [if_neg (by simpa using h)]

theorem labelImportant_filter (n : ℕ) (labels : List (String × LabelVal)) :
    labelImportant n (labels.filter (isValidLabel n))
      = labelImportant n labels := by
  unfold labelImportant
  suffices h : ∀ s : Finset ℕ,
      (labels.filter (isValidLabel n)).foldl (labelStep n) s
        = labels.foldl (labelStep n) s from h ∅
  induction labels with
  | nil => intro s; rfl
  | cons b l ih =>
      intro s
      by_cases hb : isValidLabel n b
      · rw [List.filter_cons_of_pos hb, List.foldl_cons, List.foldl_cons, ih]
      · rw [List.filter_cons_of_neg (by simpa using hb), List.foldl_cons,
          labelStep_invalid (by simpa using hb), ih]

theorem itemStep_eq : Prompt.itemStep = Explain.itemStep := by
  funext st p
  unfold Prompt.itemStep Explain.itemStep
  rcases p with ⟨i, a⟩
  match a with
  | .nonDict _ => rfl
  | .dict none _ _ => rfl
  | .dict (some t) src g =>
      simp only
      cases htr : src.truthy <;> cases hnn : src.notNone <;>
        cases hd : src.isDict <;> cases hl : src.lineVal.isSome <;>
          simp [htr, hnn, hd, hl]

theorem important_eq : Prompt.important = Explain.important := by
  funext asm labels
  unfold Prompt.important Explain.important
  rw [itemStep_eq]

theorem emitRest_eq (asm : List AsmItem) (last : Int) (idxs : List ℕ) :
    Prompt.emitRest asm last idxs = Explain.emitRest asm last idxs := by
  induction idxs generalizing last with
  | nil => rfl
  | cons i rest ih =>
      unfold Prompt.emitRest Explain.emitRest
      rw [ih]

theorem allIndices_eq : Prompt.allIndices = Explain.allIndices := by
  funext asm labels m
  unfold Prompt.allIndices Explain.allIndices Prompt.combined Explain.combined
    Prompt.contextOf Explain.contextOf
  rw [important_eq]

/-- Claim C3: identity below budget.  Whenever
`len(asm_array) <= max_lines`, `select_important_assembly` returns the
input list itself, unchanged in content and order, with no omission
markers added. -/
theorem claim3_identity_below_budget (asm : List AsmItem)
    (labels : List (String × LabelVal)) (m : Int)
    (h : (asm.length : Int) ≤ m) :
    Explain.select_important_assembly asm labels m = asm.map OutEntry.item := by
  unfold Explain.select_important_assembly
  rw [if_pos h]

/-- Witness for C3 at a concrete two-line input with budget 10. -/
theorem claim3_witness :
    (([AsmItem.dict (some "main:") .absent 0,
       AsmItem.dict (some "ret") .absent 1].length : Int) ≤ 10)
    ∧ Explain.select_important_assembly
        [AsmItem.dict (some "main:") .absent 0,
         AsmItem.dict (some "ret") .absent 1] [("main", some 0)] 10
      = [AsmItem.dict (some "main:") .absent 0,
         AsmItem.dict (some "ret") .absent 1].map OutEntry.item :=
  ⟨by decide, claim3_identity_below_budget _ _ _ (by decide)⟩

/-- Claim C8: determinism.  The selector is a pure function of its three
arguments: two calls on equal inputs give equal outputs.  The embedding is
itself a total Lean function because the Python source reads no global
mutable state, clock or randomness. -/
theorem claim8_determinism (a₁ a₂ : List AsmItem)
    (l₁ l₂ : List (String × LabelVal)) (m₁ m₂ : Int)
    (ha : a₁ = a₂) (hl : l₁ = l₂) (hm : m₁ = m₂) :
    Explain.select_important_assembly a₁ l₁ m₁
      = Explain.select_important_assembly a₂ l₂ m₂ := by
  rw [ha, hl, hm]

/-- Witness for C8 at a concrete input. -/
theorem claim8_witness :
    Explain.select_important_assembly [AsmItem.nonDict 7] [] 0
      = Explain.select_important_assembly [AsmItem.nonDict 7] [] 0 :=
  claim8_determinism _ _ _ _ _ _ rfl rfl rfl

/-- Claim C9: totality and silent tolerance of malformed data.  Non-dict
elements and dicts without a `"text"` key contribute nothing to the
important set; a text-bearing record whose `"source"` field is missing or
malformed (anything but a truthy dict carrying a non-None `"line"`) is not
marked important by the source check — the step contributes at most the
ret-epilogue window from its text; and label entries whose value is not an
integer inside `[0, len(asm_array))` are ignored: filtering them away does
not change the result.  The embedding itself is a total function, matching
the absence of any raising path in the source. -/
theorem claim9_malformed_inputs_ignored :
    (∀ (st : Finset ℕ) (i g : ℕ),
        Explain.itemStep st (i, AsmItem.nonDict g) = st)
    ∧ (∀ (st : Finset ℕ) (i g : ℕ) (src : SrcField),
        Explain.itemStep st (i, AsmItem.dict none src g) = st)
    ∧ (∀ (st : Finset ℕ) (i g : ℕ) (t : String) (src : SrcField),
        (src.truthy && src.isDict && src.lineVal.isSome) = false →
        Explain.itemStep st (i, AsmItem.dict (some t) src g)
          = if retLike (pyStrip t) then st ∪ Finset.Ico (i - 3) (i + 1)
            else st)
    ∧ ∀ (asm : List AsmItem) (labels : List (String × LabelVal)) (m : Int),
        Explain.select_important_assembly asm
            (labels.filter (isValidLabel asm.length)) m
          = Explain.select_important_assembly asm labels m := by
  refine ⟨fun st i g => rfl, fun st i g src => rfl, ?_, ?_⟩
  · intro st i g t src h
    have hst1 : (if src.truthy && src.notNone then
        if src.isDict && src.lineVal.isSome then insert i st else st
        else st) = st := by
      cases src with
      | absent => simp [SrcField.truthy]
      | srcDict es =>
          simp only [SrcField.truthy, SrcField.notNone, SrcField.isDict,
            SrcField.lineVal] at h ⊢
          cases he : es.isEmpty <;> simp_all
      | otherVal b =>
          cases b <;>
            simp [SrcField.truthy, SrcField.notNone, SrcField.isDict]
    unfold Explain.itemStep
    simp only [hst1]
  · intro asm labels m
    unfold Explain.select_important_assembly Explain.allIndices
      Explain.combined Explain.important
    rw [labelImportant_filter]

/-- Witness for C9's malformed-source conjunct: a record whose source dict
carries `"line": None` contributes nothing for a non-return text. -/
theorem claim9_witness :
    Explain.itemStep {5} (0, AsmItem.dict (some "mov eax, 1")
        (SrcField.srcDict [("line", none)]) 0)
      = (if retLike (pyStrip "mov eax, 1")
          then {5} ∪ Finset.Ico (0 - 3) (0 + 1) else {5}) :=
  claim9_malformed_inputs_ignored.2.2.1 _ _ _ _ _ (by decide)

/-- Claim C10: the free function `select_important_assembly` of
`app/explain.py` and the method `Prompt.select_important_assembly` of
`app/prompt.py` compute the same function. -/
theorem claim10_prompt_equals_explain (asm : List AsmItem)
    (labels : List (String × LabelVal)) (m : Int) :
    Prompt.select_important_assembly asm labels m
      = Explain.select_important_assembly asm labels m := by
  unfold Prompt.select_important_assembly Explain.select_important_assembly
  rw [allIndices_eq, emitRest_eq]

/-- Claim C1 (code behavior at a failing input): with
`asm_array = [{"text": "a"}, {"text": "b"}]`, `labelDefinitions = {"f": 0}`
and `max_lines = 1`, index `0` is retained, yet the output starts with a
marker reading "... (1 lines omitted) ..." although no line precedes index
`0`, and the marker counts (1 + 1) plus the single retained line sum to 3,
not `len(asm_array) = 2`: `last_idx` starts at `-2` instead of `-1`, so the
leading gap is overcounted by one. -/
theorem claim1_leading_marker_eval :
    Explain.select_important_assembly
      [AsmItem.dict (some "a") .absent 0, AsmItem.dict (some "b") .absent 1]
      [("f", some 0)] 1
    = [OutEntry.marker 1, OutEntry.item (AsmItem.dict (some "a") .absent 0),
       OutEntry.marker 1] := by
  rw [← Explain.selectExec_eq]
  decide

/-- Claim C2 (code behavior at a failing input): a uniform unimportant
input of length `N = 2` with budget `1` yields a single omission marker,
but its stated count is `N + 1 = 3`, not `N`: with nothing selected,
`last_idx` stays `-2` and the final marker states
`len(asm_array) - (-2) - 1 = N + 1`. -/
theorem claim2_uniform_marker_eval :
    Explain.select_important_assembly
      [AsmItem.dict (some "a") .absent 0, AsmItem.dict (some "b") .absent 1]
      [] 1
    = [OutEntry.marker 3] := by
  rw [← Explain.selectExec_eq]
  decide

/-- Counterexample to claim C7 as stated: on the empty input with the
negative budget `-1`, the function does not return the empty list (it
returns `[marker 1]`: the length test `0 <= -1` fails, the overflow branch
is taken, and the trailing-marker test `-2 < -1` fires). -/
theorem claim7_counterexample :
    Explain.select_important_assembly [] [] (-1) ≠ [] := by
  rw [← Explain.selectExec_eq]
  decide

/-- Claim C7 as amended: for every label map and every non-negative
budget, the empty input yields the empty output with no markers. -/
theorem claim7_empty_input_amended (labels : List (String × LabelVal))
    (m : Int) (h : 0 ≤ m) :
    Explain.select_important_assembly [] labels m = [] := by
  unfold Explain.select_important_assembly
  rw [if_pos (by simpa using h)]
  rfl

/-- Witness for the amended C7 at budget 0. -/
theorem claim7_witness :
    (0 : Int) ≤ 0
    ∧ Explain.select_important_assembly [] [("f", some 3)] 0 = [] :=
  ⟨le_refl 0, claim7_empty_input_amended _ _ (by decide)⟩

/-- Claim C4: order preservation.  The output entries that are not
omission markers are exactly the input elements at a strictly increasing
sequence of in-range input indices, taken verbatim and in input order. -/
theorem claim4_order_preservation (asm : List AsmItem)
    (labels : List (String × LabelVal)) (m : Int) :
    ∃ idxs : List ℕ, List.Pairwise (· < ·) idxs
      ∧ (∀ i ∈ idxs, i < asm.length)
      ∧ nonMarkers (Explain.select_important_assembly asm labels m)
          = idxs.filterMap (fun i => asm[i]?) := by
  unfold Explain.select_important_assembly
  split
  · refine ⟨List.range asm.length, List.pairwise_lt_range _,
      fun i hi => List.mem_range.mp hi, ?_⟩
    rw [rangeFilterMap]
    unfold nonMarkers
    rw [List.filterMap_map]
    simp [Function.comp_def]
  · exact ⟨(Explain.allIndices asm labels m).sort (· ≤ ·),
      Finset.sort_sorted_lt _,
      fun i hi => Explain.allIndices_bound _ _ _ i ((Finset.mem_sort _).mp hi),
      nonMarkers_emitRest _ _ _⟩

/-- Claim C5: overflow policy.  When the union of the important set and
its context expansion has more than `max_lines` elements (and the budget
is non-negative, as in every caller), the retained indices are exactly the
first `max_lines` important indices in ascending order; context-only
indices are excluded. -/
theorem claim5_overflow_policy (asm : List AsmItem)
    (labels : List (String × LabelVal)) (m : Int) (h0 : 0 ≤ m)
    (hover : ((Explain.combined asm labels).card : Int) > m) :
    (Explain.allIndices asm labels m).sort (· ≤ ·)
      = ((Explain.important asm labels).sort (· ≤ ·)).take m.toNat := by
  unfold Explain.allIndices
  rw [if_pos hover]
  unfold pySlice
  rw [if_neg (by omega)]
  have hnd : (((Explain.important asm labels).sort (· ≤ ·)).take m.toNat).Nodup :=
    (Finset.sort_nodup _ _).sublist (List.take_sublist _ _)
  have hsorted : (((Explain.important asm labels).sort (· ≤ ·)).take
      m.toNat).Sorted (· ≤ ·) :=
    (Finset.sort_sorted _ _).sublist (List.take_sublist _ _)
  exact (List.toFinset_sort _ hnd).mpr hsorted

/-- Witness for C5: two unimportant-context lines, one label, budget 1. -/
theorem claim5_witness :
    (0 : Int) ≤ 1
    ∧ ((Explain.combined
        [AsmItem.dict (some "a") .absent 0, AsmItem.dict (some "b") .absent 1]
        [("f", some 0)]).card : Int) > 1
    ∧ (Explain.allIndices
        [AsmItem.dict (some "a") .absent 0, AsmItem.dict (some "b") .absent 1]
        [("f", some 0)] 1).sort (· ≤ ·)
      = ((Explain.important
          [AsmItem.dict (some "a") .absent 0, AsmItem.dict (some "b") .absent 1]
          [("f", some 0)]).sort (· ≤ ·)).take (1 : Int).toNat :=
  ⟨by decide, by decide, claim5_overflow_policy _ _ _ (by decide) (by decide)⟩

/-- Counterexample to claim C6 as stated: four lines, a `"ret"` at index 1
(whose epilogue window marks indices 0 and 1 important), the label `"f"`
at valid index 3, budget `1 > 0` with `len = 4 > 1`.  The overflow
fallback keeps only the first important index `0`, so the labelled line at
index 3 is dropped even though output is produced. -/
theorem claim6_counterexample :
    OutEntry.item (AsmItem.dict (some "a3") .absent 3) ∉
      Explain.select_important_assembly
        [AsmItem.dict (some "a0") .absent 0,
         AsmItem.dict (some "ret") .absent 1,
         AsmItem.dict (some "a2") .absent 2,
         AsmItem.dict (some "a3") .absent 3]
        [("f", some 3)] 1 := by
  rw [← Explain.selectExec_eq]
  decide

/-- Claim C6 as amended: with `len(asm_array) > max_lines > 0` and
`labelDefinitions = {"f": i}` for an in-range `i`, the output contains the
original line at index `i` provided the union of the important set and its
context expansion fits within `max_lines` (when that union overflows, the
fallback keeps only the first `max_lines` important indices, which may
exclude `i`). -/
theorem claim6_label_anchoring_amended (asm : List AsmItem) (f : String)
    (i : ℕ) (m : Int) (a : AsmItem)
    (hgt : (asm.length : Int) > m) (_hm : 0 < m)
    (hfit : ((Explain.combined asm [(f, some (i : Int))]).card : Int) ≤ m)
    (ha : asm[i]? = some a) :
    OutEntry.item a ∈
      Explain.select_important_assembly asm [(f, some (i : Int))] m := by
  have hlen : i < asm.length := (List.getElem?_eq_some.mp ha).1
  have hmemL : i ∈ labelImportant asm.length [(f, some (i : Int))] := by
    unfold labelImportant
    rw [List.foldl_cons, List.foldl_nil]
    unfold labelStep
    simp only
    rw [if_pos ⟨Int.natCast_nonneg i, by exact_mod_cast hlen⟩]
    apply Finset.mem_union_right
    rw [Finset.mem_Ico, Int.toNat_natCast]
    omega
  have hmemI : i ∈ Explain.important asm [(f, some (i : Int))] :=
    labelImportant_subset_important _ _ hmemL
  have hmemAll : i ∈ Explain.allIndices asm [(f, some (i : Int))] m := by
    unfold Explain.allIndices
    rw [if_neg (by omega)]
    exact Finset.mem_union_left _ hmemI
  unfold Explain.select_important_assembly
  rw [if_neg (by omega)]
  exact mem_emitRest _ ((Finset.mem_sort _).mpr hmemAll) ha

/-- Witness for the amended C6: eight lines, label at index 0, budget 7;
the combined set is `{0, ..., 6}` of size `7 ≤ 7`, and line 0 is kept. -/
theorem claim6_witness :
    OutEntry.item (AsmItem.dict (some "x") .absent 0) ∈
      Explain.select_important_assembly
        [AsmItem.dict (some "x") .absent 0, AsmItem.dict (some "x") .absent 1,
         AsmItem.dict (some "x") .absent 2, AsmItem.dict (some "x") .absent 3,
         AsmItem.dict (some "x") .absent 4, AsmItem.dict (some "x") .absent 5,
         AsmItem.dict (some "x") .absent 6, AsmItem.dict (some "x") .absent 7]
        [("f", some ((0 : ℕ) : Int))] 7 :=
  claim6_label_anchoring_amended _ _ _ _ _ (by decide) (by decide)
    (by decide) (by decide)
